import Mathlib

/-!
Verification of the Held-Karp TSP solver repository.

The embedding covers `src/tsp_solver.rs` (the `TSPSolver` struct with its
memoized dynamic program and path reconstruction), the two text-layout
routines of `src/input_parser.rs`, and the `validate_input` function of
`src/main.rs`.

Modelling conventions:
* Rust `f64` values are modelled as exact rationals `ℚ`; `f64::INFINITY` is
  the `⊤` element of `WithTop ℚ`.
* The two `HashMap`s of the solver are modelled as functions `ℕ × ℕ → Option _`;
  `HashMap::insert` is a pointwise function update.
* The mutation of `&mut self` is modelled by threading the `TSPSolver` value
  through the computation and returning the updated value.
* Recursion and the reconstruction `while` loop receive an explicit `fuel`
  bound (an embedding device: Rust's recursion depth is bounded by the number
  of unvisited cities, which the callers' choice of fuel always covers; this
  is proved below).
* `println!` calls are modelled as no-ops.
-/

namespace TSPVerify

/-- Cost values: Rust `f64`, modelled exactly; `⊤` models `f64::INFINITY`. -/
abbrev Cost := WithTop ℚ

/-- The matrix read `self.distance_matrix[i][j]`.  The program only ever
performs in-bounds reads; out-of-bounds indices default to `0`. -/
def dist (dm : List (List ℚ)) (i j : ℕ) : ℚ :=
  (dm.getD i []).getD j 0

/-- The `TSPSolver` struct of `src/tsp_solver.rs`. -/
structure TSPSolver where
  distance_matrix : List (List ℚ)
  n : ℕ
  memo : ℕ × ℕ → Option Cost
  parent : ℕ × ℕ → Option ℕ

/-- The constructor `TSPSolver::new`: stores the matrix, sets `n` to its row count and creates
both tables empty. -/
def TSPSolver.new (distance_matrix : List (List ℚ)) : TSPSolver :=
  { distance_matrix := distance_matrix
    n := distance_matrix.length
    memo := fun _ => none
    parent := fun _ => none }

/-- The `for next in 0..self.n` loop of `TSPSolver::dp`: skips visited cities,
adds the edge cost to the recursive completion cost, and keeps the minimum,
updating `best_next` only on a strict improvement (`cost < min_cost`).
`dpRec` is the recursive `self.dp` call. -/
def TSPSolver.dpLoop
    (dpRec : TSPSolver → ℕ → ℕ → Bool → Except String (TSPSolver × Cost))
    (mask current : ℕ) (verbose : Bool) :
    List ℕ → TSPSolver → Cost → ℕ → Except String (TSPSolver × Cost × ℕ)
  | [], s, min_cost, best_next => .ok (s, min_cost, best_next)
  | next :: rest, s, min_cost, best_next =>
    if mask &&& (1 <<< next) = 0 then
      let d := dist s.distance_matrix current next
      match dpRec s (mask ||| (1 <<< next)) next verbose with
      | .error e => .error e
      | .ok (s', sub) =>
        let cost : Cost := ((d : ℚ) : Cost) + sub
        if cost < min_cost then
          TSPSolver.dpLoop dpRec mask current verbose rest s' cost next
        else
          TSPSolver.dpLoop dpRec mask current verbose rest s' min_cost best_next
    else
      TSPSolver.dpLoop dpRec mask current verbose rest s min_cost best_next

/-- The recurrence `TSPSolver::dp`: base case on the full mask, memo lookup, otherwise the
candidate loop followed by inserting the result into `memo` and `parent`. -/
def TSPSolver.dp : ℕ → TSPSolver → ℕ → ℕ → Bool → Except String (TSPSolver × Cost)
  | 0, _, _, _, _ => .error "recursion bound exhausted"
  | fuel + 1, s, mask, current, verbose =>
    if mask = (1 <<< s.n) - 1 then
      .ok (s, ((dist s.distance_matrix current 0 : ℚ) : Cost))
    else
      match s.memo (mask, current) with
      | some cached_result => .ok (s, cached_result)
      | none =>
        match TSPSolver.dpLoop (fun s' m c v => TSPSolver.dp fuel s' m c v)
            mask current verbose (List.range s.n) s ⊤ 0 with
        | .error e => .error e
        | .ok (s', min_cost, best_next) =>
          .ok ({ s' with
                  memo := fun k => if k = (mask, current) then some min_cost else s'.memo k
                  parent := fun k => if k = (mask, current) then some best_next else s'.parent k },
               min_cost)

/-- The `while current_mask != (1 << self.n) - 1` loop of
`TSPSolver::reconstruct_path`: follow `parent` pointers, appending each chosen
city, or stop when no entry exists. -/
def TSPSolver.reconstructLoop (s : TSPSolver) :
    ℕ → ℕ → ℕ → List ℕ → Except String (List ℕ)
  | 0, _, _, _ => .error "loop bound exhausted"
  | fuel + 1, current_mask, current_city, path =>
    if current_mask = (1 <<< s.n) - 1 then .ok path
    else
      match s.parent (current_mask, current_city) with
      | some next_city =>
        TSPSolver.reconstructLoop s fuel (current_mask ||| (1 <<< next_city))
          next_city (path ++ [next_city])
      | none => .ok path

/-- The method `TSPSolver::reconstruct_path`. -/
def TSPSolver.reconstruct_path (s : TSPSolver) (start_mask start_city : ℕ) :
    Except String (List ℕ) :=
  TSPSolver.reconstructLoop s s.n start_mask start_city [start_city]

/-- The method `TSPSolver::solve`: special cases for `n = 0` and `n = 1`, otherwise the
recurrence from `(mask = 1, city 0)` followed by path reconstruction. -/
def TSPSolver.solve (s : TSPSolver) (verbose : Bool) :
    Except String (TSPSolver × Cost × List ℕ) :=
  if s.n = 0 then .ok (s, ((0 : ℚ) : Cost), [])
  else if s.n = 1 then .ok (s, ((0 : ℚ) : Cost), [0])
  else
    let start_mask := 1
    match TSPSolver.dp s.n s start_mask 0 verbose with
    | .error e => .error e
    | .ok (s', min_cost) =>
      match TSPSolver.reconstruct_path s' start_mask 0 with
      | .error e => .error e
      | .ok path => .ok (s', min_cost, path)

/-! ### Specification functions (brute-force oracle) -/

/-- Cost of visiting the cities of `rest` in order, starting from `c` and
finally returning to city `0`: the brute-force cost of one candidate tour. -/
def pathCost (dm : List (List ℚ)) : ℕ → List ℕ → ℚ
  | c, [] => dist dm c 0
  | c, x :: xs => dist dm c x + pathCost dm x xs

/-- Minimum, over all permutations of `l`, of the cost of visiting the cities
of `l` in that order starting from `c` and returning to city `0`. -/
def permMin (dm : List (List ℚ)) (c : ℕ) (l : List ℕ) : Cost :=
  (l.permutations.map fun p => ((pathCost dm c p : ℚ) : Cost)).foldr min ⊤

/-- The unvisited cities of `mask`, in ascending order. -/
def unvisitedList (n mask : ℕ) : List ℕ :=
  (List.range n).filter fun i => decide (mask &&& (1 <<< i) = 0)

/-- Cost of moving from `current` to the unvisited city `x` and then completing
the tour optimally. -/
def candCost (dm : List (List ℚ)) (n mask current x : ℕ) : Cost :=
  ((dist dm current x : ℚ) : Cost) + permMin dm x (unvisitedList n (mask ||| (1 <<< x)))

/-- Pure description of the loop of `TSPSolver::dp`: running minimum with
strict-improvement argmin starting from accumulator `(m, b)`. -/
def selectMin (f : ℕ → Cost) : List ℕ → Cost → ℕ → Cost × ℕ
  | [], m, b => (m, b)
  | x :: xs, m, b =>
    if f x < m then selectMin f xs (f x) x else selectMin f xs m b

/-- Minimum of a list of costs (`⊤` for the empty list). -/
def listMin (l : List Cost) : Cost := l.foldr min ⊤

/-! ### `src/input_parser.rs` -/

/-- Rust strings are modelled as lists of characters. -/
abbrev Str := List Char

/-- Accumulator-based splitter: splits at every character satisfying `p`
(separators dropped, empty chunks kept). -/
def splitChars (p : Char → Bool) : Str → Str → List Str
  | [], acc => [acc.reverse]
  | c :: cs, acc =>
    if p c then acc.reverse :: splitChars p cs [] else splitChars p cs (c :: acc)

/-- Rust `str::lines` (modulo the treatment of a trailing newline, which the
empty-line filter in `parse` makes irrelevant). -/
def linesOf (content : Str) : List Str :=
  splitChars (fun c => c == '\n') content []

/-- Rust `str::trim`. -/
def trimChars (s : Str) : Str :=
  ((s.dropWhile Char.isWhitespace).reverse.dropWhile Char.isWhitespace).reverse

/-- Rust `str::split_whitespace`: split at whitespace, dropping empty tokens. -/
def split_whitespace (s : Str) : List Str :=
  (splitChars Char.isWhitespace s []).filter fun t => !t.isEmpty

/-- Rust `line.starts_with('#')`. -/
def startsWithHash : Str → Bool
  | [] => false
  | c :: _ => c == '#'

/-- Numeric value of a digit string. -/
def digitsVal (l : Str) : ℕ :=
  l.foldl (fun a c => 10 * a + (c.toNat - 48)) 0

/-- Modelled from Rust's `str::parse::<f64>` on its plain decimal fragment
(optional sign, integer part, optional fractional part; no exponent, `inf` or
`NaN` forms, which the repository's inputs do not use).  Returns the exact
rational value on success. -/
def parseF64? (s : Str) : Option ℚ :=
  let p : ℚ × Str :=
    match s with
    | '-' :: r => (-1, r)
    | '+' :: r => (1, r)
    | _ => (1, s)
  let intPart := p.2.takeWhile Char.isDigit
  let rest := p.2.dropWhile Char.isDigit
  match rest with
  | [] => if intPart.isEmpty then none else some (p.1 * digitsVal intPart)
  | '.' :: frac =>
    if frac.all Char.isDigit && !(intPart.isEmpty && frac.isEmpty) then
      some (p.1 * ((digitsVal intPart : ℚ) + (digitsVal frac : ℚ) / (10 : ℚ) ^ frac.length))
    else none
  | _ => none

namespace InputParser

/-- The method `InputParser::is_matrix_format`. -/
def is_matrix_format (lines : List Str) : Bool :=
  match lines with
  | [] => false
  | l0 :: _ =>
    let first_line_parts := split_whitespace l0
    decide (first_line_parts.length > 1) &&
      first_line_parts.any fun part => (parseF64? part).isNone

/-- The row-reading loop shared verbatim by `parse_matrix_format` and
`parse_list_format`: parse each line into an `f64` row, failing on an
unparsable token or a row whose width differs from `n`.  The source's
`if i >= n { break; }` corresponds to the caller passing only the first `n`
candidate lines. -/
def parseRows (n : ℕ) : List Str → Except String (List (List ℚ))
  | [] => .ok []
  | line :: rest =>
    match (split_whitespace line).mapM parseF64? with
    | none => .error "Invalid number in matrix row"
    | some row =>
      if row.length ≠ n then .error "Matrix row has wrong number of columns"
      else
        match parseRows n rest with
        | .error e => .error e
        | .ok rows => .ok (row :: rows)

/-- The method `InputParser::parse_matrix_format`. -/
def parse_matrix_format (lines : List Str) :
    Except String (List Str × List (List ℚ)) :=
  if lines.length < 2 then .error "Matrix format requires at least 2 lines"
  else
    let cities := split_whitespace (lines.headD [])
    let n := cities.length
    if n = 0 then .error "No cities found in first line"
    else
      match parseRows n ((lines.drop 1).take n) with
      | .error e => .error e
      | .ok matrix =>
        if matrix.length ≠ n then .error "Matrix row count mismatch"
        else .ok (cities, matrix)

/-- The scan of `parse_list_format` for the first line all of whose tokens
parse as numbers; `0` when there is none (the source's `matrix_start` then
keeps its initial value `0`). -/
def findMatrixStart (lines : List Str) : ℕ :=
  match lines.findIdx?
      (fun line => (split_whitespace line).all fun part => (parseF64? part).isSome) with
  | some i => i
  | none => 0

/-- The method `InputParser::parse_list_format`. -/
def parse_list_format (lines : List Str) :
    Except String (List Str × List (List ℚ)) :=
  let matrix_start := findMatrixStart lines
  if matrix_start = 0 then .error "Could not find distance matrix in input"
  else
    let cities := lines.take matrix_start
    let n := cities.length
    if n = 0 then .error "No cities found"
    else
      match parseRows n ((lines.drop matrix_start).take n) with
      | .error e => .error e
      | .ok matrix =>
        if matrix.length ≠ n then .error "Matrix row count mismatch"
        else .ok (cities, matrix)

/-- The method `InputParser::parse`. -/
def parse (content : Str) : Except String (List Str × List (List ℚ)) :=
  let lines := ((linesOf content).map trimChars).filter
    fun line => !line.isEmpty && !startsWithHash line
  if lines.isEmpty then .error "Empty input file"
  else if is_matrix_format lines then parse_matrix_format lines
  else parse_list_format lines

end InputParser

/-! ### `validate_input` of `src/main.rs` -/

/-- The `for (i, row) in matrix.iter().enumerate()` loop of `validate_input`:
row width, zero diagonal entry, no negative entry. -/
def validateRows (n : ℕ) : ℕ → List (List ℚ) → Except String Unit
  | _, [] => .ok ()
  | i, row :: rest =>
    if row.length ≠ n then .error "Distance matrix row has wrong number of columns"
    else if row.getD i 0 ≠ 0 then .error "Distance from city to itself should be 0"
    else if row.any (fun d => decide (d < 0)) then .error "Negative distance found"
    else validateRows n (i + 1) rest

/-- The function `validate_input` of `src/main.rs`. -/
def validate_input (cities : List Str) (matrix : List (List ℚ)) :
    Except String Unit :=
  let n := cities.length
  if n < 2 then .error "At least 2 cities are required"
  else if n > 20 then .error "Maximum 20 cities supported"
  else if matrix.length ≠ n then .error "Distance matrix rows do not match cities count"
  else validateRows n 0 matrix

/-- One of the repository's own reference instances (`test_small_tsp`). -/
def exampleMatrix : List (List ℚ) :=
  [[0, 10, 15], [10, 0, 20], [15, 20, 0]]

/-- Invariant of the solver's tables: every `memo` entry holds the brute-force
optimal completion cost of its state; the recorded `parent` of a memoized
state is the least-indexed optimal next city, and the successor state it leads
to is itself memoized (unless it is the full mask); `parent` entries exist
only for memoized states with in-range masks. -/
def Inv (dm : List (List ℚ)) (n : ℕ) (memo : ℕ × ℕ → Option Cost)
    (parent : ℕ × ℕ → Option ℕ) : Prop :=
  (∀ mask c v, memo (mask, c) = some v →
    mask < 2 ^ n ∧
    mask ≠ 2 ^ n - 1 ∧
    v = permMin dm c (unvisitedList n mask) ∧
    ∃ b, parent (mask, c) = some b ∧
      b ∈ unvisitedList n mask ∧
      candCost dm n mask c b = permMin dm c (unvisitedList n mask) ∧
      (∀ y ∈ unvisitedList n mask,
        candCost dm n mask c y = permMin dm c (unvisitedList n mask) → b ≤ y) ∧
      (mask ||| (1 <<< b) = 2 ^ n - 1 ∨ (memo (mask ||| (1 <<< b), b)).isSome)) ∧
  (∀ mask c b, parent (mask, c) = some b → (memo (mask, c)).isSome)

/-- Correctness statement for `TSPSolver.dp` at a given fuel: starting from
tables satisfying `Inv`, the call succeeds, returns the brute-force optimal
completion cost, preserves existing table entries and the invariant, and
memoizes its own state (unless it is the full mask). -/
def DpOk (fuel : ℕ) : Prop :=
  ∀ (s : TSPSolver) (mask current : ℕ) (verbose : Bool),
    Inv s.distance_matrix s.n s.memo s.parent →
    mask < 2 ^ s.n →
    (unvisitedList s.n mask).length < fuel →
    ∃ s', TSPSolver.dp fuel s mask current verbose =
        .ok (s', permMin s.distance_matrix current (unvisitedList s.n mask)) ∧
      s'.distance_matrix = s.distance_matrix ∧
      s'.n = s.n ∧
      Inv s'.distance_matrix s'.n s'.memo s'.parent ∧
      (∀ k v, s.memo k = some v → s'.memo k = some v) ∧
      (∀ k v, s.parent k = some v → s'.parent k = some v) ∧
      (mask ≠ 2 ^ s.n - 1 → (s'.memo (mask, current)).isSome)

/-! ### Lemmas: folded minima -/

theorem listMin_nil : listMin [] = ⊤ := rfl

theorem listMin_cons (a : Cost) (l : List Cost) :
    listMin (a :: l) = min a (listMin l) := rfl

theorem listMin_le_of_mem {l : List Cost} {a : Cost} (h : a ∈ l) :
    listMin l ≤ a := by
  induction l with
  | nil => cases h
  | cons x xs ih =>
    rcases List.mem_cons.1 h with h | h
    · subst h; exact min_le_left _ _
    · exact le_trans (min_le_right _ _) (ih h)

theorem le_listMin {l : List Cost} {b : Cost} (h : ∀ a ∈ l, b ≤ a) :
    b ≤ listMin l := by
  induction l with
  | nil => exact le_top
  | cons x xs ih =>
    exact le_min (h x (List.mem_cons_self _ _)) (ih fun a ha => h a (List.mem_cons_of_mem _ ha))

theorem listMin_mem_or_top (l : List Cost) : listMin l ∈ l ∨ listMin l = ⊤ := by
  induction l with
  | nil => exact Or.inr rfl
  | cons x xs ih =>
    rw [listMin_cons]
    rcases le_total x (listMin xs) with h | h
    · exact Or.inl (by rw [min_eq_left h]; exact List.mem_cons_self _ _)
    · rw [min_eq_right h]
      rcases ih with h' | h'
      · exact Or.inl (List.mem_cons_of_mem _ h')
      · exact Or.inr h'

theorem foldl_min_eq (l : List Cost) : ∀ a : Cost, l.foldl min a = min a (listMin l) := by
  induction l with
  | nil => intro a; simp [listMin_nil]
  | cons x xs ih =>
    intro a
    rw [List.foldl_cons, ih (min a x), listMin_cons, min_assoc]

/-! ### Lemmas: `selectMin` -/

theorem selectMin_fst (f : ℕ → Cost) :
    ∀ (L : List ℕ) (m : Cost) (b : ℕ),
      (selectMin f L m b).1 = min m (listMin (L.map f)) := by
  intro L
  induction L with
  | nil => intro m b; simp [selectMin, listMin_nil]
  | cons x xs ih =>
    intro m b
    by_cases h : f x < m
    · rw [selectMin, if_pos h, ih, List.map_cons, listMin_cons, ← min_assoc,
        min_eq_right (le_of_lt h)]
    · rw [selectMin, if_neg h, ih, List.map_cons, listMin_cons, ← min_assoc,
        min_eq_left (le_of_not_lt h)]

theorem selectMin_spec (f : ℕ → Cost) :
    ∀ (L : List ℕ) (m : Cost) (b : ℕ),
      (selectMin f L m b).1 ≤ m ∧
      ((selectMin f L m b).1 < m →
        (selectMin f L m b).2 ∈ L ∧ f (selectMin f L m b).2 = (selectMin f L m b).1) ∧
      (¬ (selectMin f L m b).1 < m →
        (selectMin f L m b).2 = b ∧ (selectMin f L m b).1 = m) ∧
      (∀ y ∈ L, (selectMin f L m b).1 ≤ f y) ∧
      (List.Pairwise (· < ·) L →
        ∀ y ∈ L, f y = (selectMin f L m b).1 → (selectMin f L m b).1 < m →
          (selectMin f L m b).2 ≤ y) := by
  intro L
  induction L with
  | nil =>
    intro m b
    refine ⟨le_refl _, ?_, fun _ => ⟨rfl, rfl⟩, ?_, ?_⟩
    · intro h; exact absurd h (lt_irrefl _)
    · intro y hy; cases hy
    · intro _ y hy; cases hy
  | cons x xs ih =>
    intro m b
    by_cases hx : f x < m
    · rw [selectMin, if_pos hx]
      obtain ⟨ih1, ih2, ih3, ih4, ih5⟩ := ih (f x) x
      refine ⟨le_trans ih1 (le_of_lt hx), ?_, ?_, ?_, ?_⟩
      · intro _
        by_cases hlt : (selectMin f xs (f x) x).1 < f x
        · obtain ⟨h1, h2⟩ := ih2 hlt
          exact ⟨List.mem_cons_of_mem _ h1, h2⟩
        · obtain ⟨h1, h2⟩ := ih3 hlt
          exact ⟨by rw [h1]; exact List.mem_cons_self _ _, by rw [h1, h2]⟩
      · intro hnlt
        exact absurd (lt_of_le_of_lt ih1 hx) hnlt
      · intro y hy
        rcases List.mem_cons.1 hy with h | h
        · subst h; exact ih1
        · exact ih4 y h
      · intro hsorted y hy hfy _
        by_cases hlt : (selectMin f xs (f x) x).1 < f x
        · rcases List.mem_cons.1 hy with h | h
          · subst h
            exact absurd (lt_of_lt_of_le hlt (le_of_eq hfy)) (lt_irrefl _)
          · exact ih5 (List.Pairwise.sublist (List.sublist_cons_self _ _) hsorted) y h hfy hlt
        · obtain ⟨h1, h2⟩ := ih3 hlt
          rcases List.mem_cons.1 hy with h | h
          · subst h; rw [h1]
          · rw [h1]
            exact le_of_lt ((List.pairwise_cons.1 hsorted).1 y h)
    · rw [selectMin, if_neg hx]
      obtain ⟨ih1, ih2, ih3, ih4, ih5⟩ := ih m b
      refine ⟨ih1, ?_, ih3, ?_, ?_⟩
      · intro hlt
        obtain ⟨h1, h2⟩ := ih2 hlt
        exact ⟨List.mem_cons_of_mem _ h1, h2⟩
      · intro y hy
        rcases List.mem_cons.1 hy with h | h
        · subst h; exact le_trans ih1 (le_of_not_lt hx)
        · exact ih4 y h
      · intro hsorted y hy hfy hlt
        rcases List.mem_cons.1 hy with h | h
        · subst h
          rw [hfy] at hx
          exact absurd hlt hx
        · exact ih5 (List.Pairwise.sublist (List.sublist_cons_self _ _) hsorted) y h hfy hlt

/-! ### Lemmas: bitmask arithmetic -/

theorem and_shift_eq_zero_iff (mask i : ℕ) :
    mask &&& (1 <<< i) = 0 ↔ mask.testBit i = false := by
  rw [Nat.one_shiftLeft, Nat.and_two_pow]
  cases h : mask.testBit i
  · simp
  · simp only [Bool.toNat_true, one_mul]
    constructor
    · intro h2
      exact absurd h2 (Nat.two_pow_pos i).ne'
    · intro h2
      cases h2

theorem mem_unvisitedList {n mask i : ℕ} :
    i ∈ unvisitedList n mask ↔ i < n ∧ mask.testBit i = false := by
  rw [unvisitedList, List.mem_filter, List.mem_range]
  simp [and_shift_eq_zero_iff]

theorem unvisitedList_pairwise (n mask : ℕ) :
    (unvisitedList n mask).Pairwise (· < ·) := by
  exact List.Pairwise.filter _ (List.pairwise_lt_range n)

theorem unvisitedList_nodup (n mask : ℕ) : (unvisitedList n mask).Nodup :=
  (unvisitedList_pairwise n mask).imp ne_of_lt

theorem unvisitedList_full (n : ℕ) : unvisitedList n (2 ^ n - 1) = [] := by
  rw [unvisitedList, List.filter_eq_nil_iff]
  intro i hi
  rw [List.mem_range] at hi
  simp [and_shift_eq_zero_iff, Nat.testBit_two_pow_sub_one, hi]

theorem unvisitedList_nil_iff {n mask : ℕ} (h : mask < 2 ^ n) :
    unvisitedList n mask = [] ↔ mask = 2 ^ n - 1 := by
  constructor
  · intro he
    apply Nat.eq_of_testBit_eq
    intro i
    by_cases hi : i < n
    · rw [Nat.testBit_two_pow_sub_one, decide_eq_true hi]
      by_contra hb
      have : i ∈ unvisitedList n mask :=
        mem_unvisitedList.2 ⟨hi, Bool.not_eq_true _ ▸ hb⟩
      rw [he] at this
      cases this
    · rw [Nat.testBit_two_pow_sub_one]
      have h1 : mask.testBit i = false :=
        Nat.testBit_eq_false_of_lt (lt_of_lt_of_le h (Nat.pow_le_pow_right (by norm_num) (le_of_not_lt hi)))
      rw [h1]
      simp [hi]
  · intro he; rw [he]; exact unvisitedList_full n

theorem unvisitedList_union_bit {n mask x : ℕ} (hx : x ∈ unvisitedList n mask) :
    unvisitedList n (mask ||| (1 <<< x)) = (unvisitedList n mask).erase x := by
  rw [List.Nodup.erase_eq_filter (unvisitedList_nodup n mask), unvisitedList, unvisitedList,
    List.filter_filter]
  apply List.filter_congr
  intro i _
  by_cases hix : i = x
  · subst hix
    have h : (mask ||| 1 <<< i).testBit i = true := by
      rw [Nat.one_shiftLeft, Nat.testBit_or, Nat.testBit_two_pow_self, Bool.or_true]
    simp [and_shift_eq_zero_iff, h]
  · have hbit : (mask ||| 1 <<< x).testBit i = mask.testBit i := by
      rw [Nat.one_shiftLeft, Nat.testBit_or, Nat.testBit_two_pow,
        decide_eq_false (Ne.symm hix), Bool.or_false]
    have hne : (i != x) = true := by simp [hix]
    simp [and_shift_eq_zero_iff, hbit, hne]

theorem unvisitedList_ne_nil {n mask : ℕ} (h1 : mask < 2 ^ n) (h2 : mask ≠ 2 ^ n - 1) :
    unvisitedList n mask ≠ [] := fun he => h2 ((unvisitedList_nil_iff h1).1 he)

/-! ### Lemmas: the brute-force oracle `permMin` -/

theorem permMin_eq_listMin (dm : List (List ℚ)) (c : ℕ) (l : List ℕ) :
    permMin dm c l = listMin (l.permutations.map fun p => ((pathCost dm c p : ℚ) : Cost)) :=
  rfl

theorem permMin_le {dm : List (List ℚ)} {c : ℕ} {p l : List ℕ} (h : p.Perm l) :
    permMin dm c l ≤ ((pathCost dm c p : ℚ) : Cost) := by
  rw [permMin_eq_listMin]
  exact listMin_le_of_mem (List.mem_map_of_mem _ (List.mem_permutations.2 h))

theorem permMin_lt_top (dm : List (List ℚ)) (c : ℕ) (l : List ℕ) :
    permMin dm c l < ⊤ :=
  lt_of_le_of_lt (permMin_le (List.Perm.refl l)) (WithTop.coe_lt_top _)

theorem permMin_attained (dm : List (List ℚ)) (c : ℕ) (l : List ℕ) :
    ∃ p, p.Perm l ∧ permMin dm c l = ((pathCost dm c p : ℚ) : Cost) := by
  rcases listMin_mem_or_top (l.permutations.map fun p => ((pathCost dm c p : ℚ) : Cost)) with h | h
  · rcases List.mem_map.1 h with ⟨p, hp, he⟩
    exact ⟨p, List.mem_permutations.1 hp, ((permMin_eq_listMin dm c l).trans he.symm).symm.symm⟩
  · exfalso
    have h1 := permMin_lt_top dm c l
    rw [permMin_eq_listMin, h] at h1
    exact absurd h1 (lt_irrefl _)

theorem pathCost_cons (dm : List (List ℚ)) (c x : ℕ) (xs : List ℕ) :
    pathCost dm c (x :: xs) = dist dm c x + pathCost dm x xs := rfl

/-- Bellman equation for the brute-force oracle: for a non-empty set of
remaining cities, the optimal completion cost is the minimum over the choice
of the next city. -/
theorem permMin_bellman {dm : List (List ℚ)} {c : ℕ} {l : List ℕ} (hl : l ≠ []) :
    permMin dm c l =
      listMin (l.map fun x => ((dist dm c x : ℚ) : Cost) + permMin dm x (l.erase x)) := by
  apply le_antisymm
  · apply le_listMin
    intro a ha
    rcases List.mem_map.1 ha with ⟨x, hx, rfl⟩
    rcases permMin_attained dm x (l.erase x) with ⟨p', hp', he⟩
    rw [he, ← WithTop.coe_add, ← pathCost_cons]
    exact permMin_le (List.cons_perm_iff_perm_erase.2 ⟨hx, hp'⟩)
  · rw [permMin_eq_listMin]
    apply le_listMin
    intro a ha
    rcases List.mem_map.1 ha with ⟨p, hp, rfl⟩
    have hperm : p.Perm l := List.mem_permutations.1 hp
    cases p with
    | nil => exact absurd (List.Perm.eq_nil hperm.symm) hl
    | cons x p' =>
      obtain ⟨hx, hp'⟩ := List.cons_perm_iff_perm_erase.1 hperm
      calc listMin (l.map fun x => ((dist dm c x : ℚ) : Cost) + permMin dm x (l.erase x)) ≤
            ((dist dm c x : ℚ) : Cost) + permMin dm x (l.erase x) :=
              listMin_le_of_mem (List.mem_map_of_mem _ hx)
        _ ≤ ((dist dm c x : ℚ) : Cost) + ((pathCost dm x p' : ℚ) : Cost) :=
              add_le_add_left (permMin_le hp') _
        _ = ((pathCost dm c (x :: p') : ℚ) : Cost) := by
              rw [pathCost_cons, WithTop.coe_add]

theorem permMin_nil (dm : List (List ℚ)) (c : ℕ) :
    permMin dm c [] = ((dist dm c 0 : ℚ) : Cost) := by
  rw [permMin_eq_listMin, List.permutations_nil, List.map_cons, List.map_nil,
    listMin_cons, listMin_nil]
  exact min_eq_left le_top

theorem candCost_lt_top (dm : List (List ℚ)) (n mask current x : ℕ) :
    candCost dm n mask current x < ⊤ := by
  rw [candCost]
  exact WithTop.add_lt_top.2 ⟨WithTop.coe_lt_top _, permMin_lt_top _ _ _⟩

theorem mask_or_lt {n mask x : ℕ} (hmask : mask < 2 ^ n) (hx : x < n) :
    mask ||| (1 <<< x) < 2 ^ n := by
  rw [Nat.one_shiftLeft]
  exact Nat.or_lt_two_pow hmask (Nat.pow_lt_pow_right (by norm_num) hx)

theorem mask_or_ne_self {mask x : ℕ} (hx : mask.testBit x = false) :
    mask ||| (1 <<< x) ≠ mask := by
  intro h
  have := congrArg (fun t => t.testBit x) h
  simp only [Nat.one_shiftLeft, Nat.testBit_or, Nat.testBit_two_pow_self,
    Bool.or_true] at this
  rw [hx] at this
  cases this

theorem isSome_mono {α : Type} {f g : ℕ × ℕ → Option α}
    (h : ∀ k v, f k = some v → g k = some v) {k : ℕ × ℕ}
    (hk : (f k).isSome) : (g k).isSome := by
  rcases Option.isSome_iff_exists.1 hk with ⟨v, hv⟩
  rw [h k v hv]
  rfl

/-! ### The main induction: `dp` computes the brute-force optimum -/

theorem dpLoop_spec {fuel : ℕ} (IH : DpOk fuel) (dm : List (List ℚ)) (n : ℕ)
    (mask current : ℕ) (verbose : Bool)
    (hmask : mask < 2 ^ n)
    (hfuel : (unvisitedList n mask).length ≤ fuel) :
    ∀ (L : List ℕ) (s : TSPSolver) (m : Cost) (b : ℕ),
      s.distance_matrix = dm → s.n = n →
      Inv dm n s.memo s.parent →
      (∀ x ∈ L, x < n) →
      ∃ s', TSPSolver.dpLoop (fun s1 m1 c1 v1 => TSPSolver.dp fuel s1 m1 c1 v1)
          mask current verbose L s m b =
          .ok (s', selectMin (candCost dm n mask current)
            (L.filter fun x => decide (mask &&& (1 <<< x) = 0)) m b) ∧
        s'.distance_matrix = dm ∧ s'.n = n ∧
        Inv dm n s'.memo s'.parent ∧
        (∀ k v, s.memo k = some v → s'.memo k = some v) ∧
        (∀ k v, s.parent k = some v → s'.parent k = some v) ∧
        (∀ x ∈ L, mask &&& (1 <<< x) = 0 →
          (mask ||| (1 <<< x) = 2 ^ n - 1 ∨ (s'.memo (mask ||| (1 <<< x), x)).isSome)) := by
  intro L
  induction L with
  | nil =>
    intro s m b hdm hn hInv hL
    refine ⟨s, rfl, hdm, hn, hInv, fun k v h => h, fun k v h => h, ?_⟩
    intro x hx
    cases hx
  | cons x rest ihL =>
    intro s m b hdm hn hInv hL
    by_cases hxv : mask &&& (1 <<< x) = 0
    · -- `x` is unvisited: the loop performs the recursive `dp` call on it
      have hxn : x < n := hL x (List.mem_cons_self _ _)
      have hxmem : x ∈ unvisitedList n mask :=
        mem_unvisitedList.2 ⟨hxn, (and_shift_eq_zero_iff mask x).1 hxv⟩
      have hchildmask : mask ||| (1 <<< x) < 2 ^ n := mask_or_lt hmask hxn
      have hchildlen : (unvisitedList n (mask ||| (1 <<< x))).length < fuel := by
        rw [unvisitedList_union_bit hxmem, List.length_erase_of_mem hxmem]
        have hpos : 0 < (unvisitedList n mask).length :=
          List.length_pos.2 (fun hnil => by rw [hnil] at hxmem; cases hxmem)
        omega
      obtain ⟨s₁, heq, hdm₁, hn₁, hInv₁, hmm₁, hmp₁, hcov₁⟩ :=
        IH s (mask ||| (1 <<< x)) x verbose
          (by rw [hdm, hn]; exact hInv) (by rw [hn]; exact hchildmask)
          (by rw [hn]; exact hchildlen)
      rw [hdm] at heq hdm₁
      rw [hn] at heq hn₁ hcov₁
      rw [hdm₁, hn₁] at hInv₁
      rw [TSPSolver.dpLoop, if_pos hxv]
      dsimp only
      rw [heq]
      dsimp only
      have hcostEq : ((dist s.distance_matrix current x : ℚ) : Cost) +
          permMin dm x (unvisitedList n (mask ||| (1 <<< x))) =
          candCost dm n mask current x := by
        rw [hdm, candCost]
      rw [List.filter_cons_of_pos (by simpa using hxv), selectMin]
      by_cases hc : candCost dm n mask current x < m
      · rw [hcostEq, if_pos hc, if_pos hc]
        obtain ⟨s₂, heq₂, hdm₂, hn₂, hInv₂, hmm₂, hmp₂, hcov₂⟩ :=
          ihL s₁ (candCost dm n mask current x) x hdm₁ hn₁ hInv₁
            (fun y hy => hL y (List.mem_cons_of_mem _ hy))
        refine ⟨s₂, heq₂, hdm₂, hn₂, hInv₂,
          fun k v h => hmm₂ k v (hmm₁ k v h),
          fun k v h => hmp₂ k v (hmp₁ k v h), ?_⟩
        intro y hy hyv
        rcases List.mem_cons.1 hy with h | h
        · subst h
          by_cases hful : mask ||| (1 <<< y) = 2 ^ n - 1
          · exact Or.inl hful
          · exact Or.inr (isSome_mono hmm₂ (hcov₁ hful))
        · exact hcov₂ y h hyv
      · rw [hcostEq, if_neg hc, if_neg hc]
        obtain ⟨s₂, heq₂, hdm₂, hn₂, hInv₂, hmm₂, hmp₂, hcov₂⟩ :=
          ihL s₁ m b hdm₁ hn₁ hInv₁ (fun y hy => hL y (List.mem_cons_of_mem _ hy))
        refine ⟨s₂, heq₂, hdm₂, hn₂, hInv₂,
          fun k v h => hmm₂ k v (hmm₁ k v h),
          fun k v h => hmp₂ k v (hmp₁ k v h), ?_⟩
        intro y hy hyv
        rcases List.mem_cons.1 hy with h | h
        · subst h
          by_cases hful : mask ||| (1 <<< y) = 2 ^ n - 1
          · exact Or.inl hful
          · exact Or.inr (isSome_mono hmm₂ (hcov₁ hful))
        · exact hcov₂ y h hyv
    · -- `x` is already visited: the loop skips it
      rw [TSPSolver.dpLoop, if_neg hxv,
        List.filter_cons_of_neg (by simpa using hxv)]
      obtain ⟨s₂, heq₂, hdm₂, hn₂, hInv₂, hmm₂, hmp₂, hcov₂⟩ :=
        ihL s m b hdm hn hInv (fun y hy => hL y (List.mem_cons_of_mem _ hy))
      refine ⟨s₂, heq₂, hdm₂, hn₂, hInv₂, hmm₂, hmp₂, ?_⟩
      intro y hy hyv
      rcases List.mem_cons.1 hy with h | h
      · subst h
        exact absurd hyv hxv
      · exact hcov₂ y h hyv

theorem dp_spec : ∀ fuel, DpOk fuel := by
  intro fuel
  induction fuel with
  | zero =>
    intro s mask current verbose hInv hmask hfuel
    exact absurd hfuel (Nat.not_lt_zero _)
  | succ fuel ih =>
    intro s mask current verbose hInv hmask hfuel
    rw [TSPSolver.dp]
    by_cases hfull : mask = (1 <<< s.n) - 1
    · rw [if_pos hfull]
      have hunil : unvisitedList s.n mask = [] := by
        rw [hfull, Nat.one_shiftLeft]
        exact unvisitedList_full s.n
      refine ⟨s, ?_, rfl, rfl, hInv, fun k v h => h, fun k v h => h, ?_⟩
      · rw [hunil, permMin_nil]
      · intro hne
        exact absurd (by rw [hfull, Nat.one_shiftLeft]) hne
    · rw [if_neg hfull]
      have hfull2 : mask ≠ 2 ^ s.n - 1 := fun h => hfull (by rw [h, Nat.one_shiftLeft])
      cases hmemo : s.memo (mask, current) with
      | some v =>
        dsimp only
        obtain ⟨-, -, hv, -⟩ := hInv.1 mask current v hmemo
        refine ⟨s, by rw [hv], rfl, rfl, hInv, fun k v h => h, fun k v h => h, ?_⟩
        intro _
        rw [hmemo]
        rfl
      | none =>
        dsimp only
        obtain ⟨s₁, heqloop, hdm₁, hn₁, hInv₁, hmm₁, hmp₁, hcov₁⟩ :=
          dpLoop_spec ih s.distance_matrix s.n mask current verbose hmask
            (Nat.lt_succ_iff.1 hfuel) (List.range s.n) s ⊤ 0 rfl rfl hInv
            (fun x hx => List.mem_range.1 hx)
        have hfilter : ((List.range s.n).filter fun x => decide (mask &&& (1 <<< x) = 0)) =
            unvisitedList s.n mask := rfl
        rw [hfilter] at heqloop
        rcases hsel : selectMin (candCost s.distance_matrix s.n mask current)
            (unvisitedList s.n mask) ⊤ 0 with ⟨mstar, bstar⟩
        rw [hsel] at heqloop
        rw [heqloop]
        dsimp only
        have hne : unvisitedList s.n mask ≠ [] := unvisitedList_ne_nil hmask hfull2
        have hfst : mstar = permMin s.distance_matrix current (unvisitedList s.n mask) := by
          have h1 := selectMin_fst (candCost s.distance_matrix s.n mask current)
            (unvisitedList s.n mask) ⊤ 0
          rw [hsel] at h1
          dsimp only at h1
          rw [min_eq_right le_top] at h1
          rw [permMin_bellman hne, h1]
          congr 1
          apply List.map_congr_left
          intro x hx
          rw [candCost, unvisitedList_union_bit hx]
        obtain ⟨-, hspec2, -, -, hspec5⟩ := selectMin_spec
          (candCost s.distance_matrix s.n mask current) (unvisitedList s.n mask) ⊤ 0
        rw [hsel] at hspec2 hspec5
        dsimp only at hspec2 hspec5
        have hmtop : mstar < ⊤ := by
          rw [hfst]
          exact permMin_lt_top _ _ _
        obtain ⟨hbmem, hbeq⟩ := hspec2 hmtop
        have hbn : bstar < s.n := (mem_unvisitedList.1 hbmem).1
        have hbclear : mask &&& (1 <<< bstar) = 0 :=
          (and_shift_eq_zero_iff mask bstar).2 (mem_unvisitedList.1 hbmem).2
        have hcovb := hcov₁ bstar (List.mem_range.2 hbn) hbclear
        rw [hfst] at heqloop hbeq hspec5 ⊢
        refine ⟨_, rfl, hdm₁, hn₁, ?_, ?_, ?_, ?_⟩
        · -- the invariant holds for the updated tables
          dsimp only
          rw [hdm₁, hn₁]
          have hsome : ∀ k, (s₁.memo k).isSome →
              (Option.isSome (if k = (mask, current) then
                some (permMin s.distance_matrix current (unvisitedList s.n mask))
                else s₁.memo k)) := by
            intro k hk
            by_cases h : k = (mask, current)
            · rw [if_pos h]; rfl
            · rw [if_neg h]; exact hk
          constructor
          · intro mask' c' v' hmem'
            dsimp only at hmem'
            by_cases hk : ((mask', c') : ℕ × ℕ) = (mask, current)
            · rw [if_pos hk] at hmem'
              rw [Prod.mk.injEq] at hk
              obtain ⟨he1, he2⟩ := hk
              subst he1
              subst he2
              refine ⟨hmask, hfull2, (Option.some.injEq _ _ ▸ hmem').symm, bstar,
                ?_, hbmem, hbeq, ?_, ?_⟩
              · dsimp only
                rw [if_pos rfl]
              · intro y hy hyeq
                exact hspec5 (unvisitedList_pairwise _ _) y hy hyeq (permMin_lt_top _ _ _)
              · rcases hcovb with h | h
                · exact Or.inl h
                · exact Or.inr (hsome _ h)
            · rw [if_neg hk] at hmem'
              obtain ⟨h1, h2, h3, b, hb, hb1, hb2, hb3, hb4⟩ := hInv₁.1 mask' c' v' hmem'
              refine ⟨h1, h2, h3, b, ?_, hb1, hb2, hb3, ?_⟩
              · dsimp only
                rw [if_neg hk]
                exact hb
              · rcases hb4 with h | h
                · exact Or.inl h
                · exact Or.inr (hsome _ h)
          · intro mask' c' b' hp'
            dsimp only at hp'
            by_cases hk : ((mask', c') : ℕ × ℕ) = (mask, current)
            · dsimp only
              rw [hk, if_pos rfl]
              rfl
            · rw [if_neg hk] at hp'
              dsimp only
              rw [if_neg hk]
              exact isSome_mono (f := s₁.memo) (fun k v h => h) (hInv₁.2 mask' c' b' hp')
        · -- existing memo entries survive
          intro k v h
          by_cases hk : k = (mask, current)
          · rw [hk] at h
            rw [h] at hmemo
            cases hmemo
          · dsimp only
            rw [if_neg hk]
            exact hmm₁ k v h
        · -- existing parent entries survive
          intro k v h
          by_cases hk : k = (mask, current)
          · have : (s.memo k).isSome := hInv.2 k.1 k.2 v (by rw [← h])
            rw [hk, hmemo] at this
            cases this
          · dsimp only
            rw [if_neg hk]
            exact hmp₁ k v h
        · -- the present state has been memoized
          intro _
          dsimp only
          rw [if_pos rfl]
          rfl

/-! ### Reconstruction -/

theorem length_eq_of_nodup_complete {l : List ℕ} {n : ℕ} (hnd : l.Nodup)
    (hb : ∀ x ∈ l, x < n) (hc : ∀ i, i < n → i ∈ l) : l.length = n := by
  have h1 : l.toFinset = Finset.range n := by
    apply Finset.ext
    intro i
    rw [List.mem_toFinset, Finset.mem_range]
    exact ⟨fun h => hb i h, fun h => hc i h⟩
  have h2 := congrArg Finset.card h1
  rw [List.card_toFinset, List.Nodup.dedup hnd, Finset.card_range] at h2
  exact h2

theorem testBit_one (i : ℕ) : (1 : ℕ).testBit i = decide (0 = i) := by
  have : (1 : ℕ) = 2 ^ 0 := rfl
  rw [this, Nat.testBit_two_pow]

theorem one_ne_full {n : ℕ} (h2 : 2 ≤ n) : (1 : ℕ) ≠ 2 ^ n - 1 := by
  have : 2 ^ 2 ≤ 2 ^ n := Nat.pow_le_pow_right (by norm_num) h2
  omega

theorem one_lt_two_pow_n {n : ℕ} (h1 : 1 ≤ n) : (1 : ℕ) < 2 ^ n := by
  have : 2 ^ 1 ≤ 2 ^ n := Nat.pow_le_pow_right (by norm_num) h1
  omega

theorem unvisitedList_one {n : ℕ} (hn : 1 ≤ n) :
    unvisitedList n 1 = List.range' 1 (n - 1) := by
  obtain ⟨m, rfl⟩ : ∃ m, n = m + 1 := ⟨n - 1, by omega⟩
  rw [unvisitedList, List.range_eq_range', List.range'_succ, List.filter_cons]
  have h0 : (decide ((1 : ℕ) &&& 1 <<< 0 = 0)) = false := by decide
  rw [h0]
  simp only [Nat.add_sub_cancel, Bool.false_eq_true, if_false]
  rw [List.filter_eq_self]
  intro a ha
  rw [List.mem_range'] at ha
  obtain ⟨i, hi, rfl⟩ := ha
  rw [decide_eq_true_eq, and_shift_eq_zero_iff, testBit_one]
  simp only [decide_eq_false_iff_not]
  omega

theorem reconstructLoop_spec (s : TSPSolver)
    (hInv : Inv s.distance_matrix s.n s.memo s.parent) :
    ∀ (fuel : ℕ) (mask current : ℕ) (path : List ℕ),
      mask < 2 ^ s.n →
      (unvisitedList s.n mask).length < fuel →
      (mask = 2 ^ s.n - 1 ∨ (s.memo (mask, current)).isSome) →
      path.Nodup →
      (∀ x ∈ path, x < s.n) →
      (∀ i, i < s.n → (mask.testBit i = true ↔ i ∈ path)) →
      ∃ q, TSPSolver.reconstructLoop s fuel mask current path = .ok (path ++ q) ∧
        (path ++ q).Nodup ∧
        (∀ x ∈ path ++ q, x < s.n) ∧
        (∀ i, i < s.n → i ∈ path ++ q) := by
  intro fuel
  induction fuel with
  | zero =>
    intro mask current path hmask hlen hcov hnd hbound hbits
    exact absurd hlen (Nat.not_lt_zero _)
  | succ fuel ih =>
    intro mask current path hmask hlen hcov hnd hbound hbits
    rw [TSPSolver.reconstructLoop]
    by_cases hfull : mask = (1 <<< s.n) - 1
    · rw [if_pos hfull]
      refine ⟨[], by rw [List.append_nil], by rw [List.append_nil]; exact hnd,
        by rw [List.append_nil]; exact hbound, ?_⟩
      intro i hi
      rw [List.append_nil]
      apply (hbits i hi).1
      rw [hfull, Nat.one_shiftLeft, Nat.testBit_two_pow_sub_one]
      exact decide_eq_true hi
    · rw [if_neg hfull]
      have hfull2 : mask ≠ 2 ^ s.n - 1 := fun h => hfull (by rw [h, Nat.one_shiftLeft])
      rcases hcov with h | hms
      · exact absurd h hfull2
      rcases Option.isSome_iff_exists.1 hms with ⟨v, hv⟩
      obtain ⟨-, -, -, b, hb, hbmem, -, -, hbcov⟩ := hInv.1 mask current v hv
      rw [hb]
      dsimp only
      obtain ⟨hbn, hbbit⟩ := mem_unvisitedList.1 hbmem
      have hbnotpath : b ∉ path := fun hmem => by
        have := (hbits b hbn).2 hmem
        rw [hbbit] at this
        cases this
      have hlen' : (unvisitedList s.n (mask ||| (1 <<< b))).length < fuel := by
        rw [unvisitedList_union_bit hbmem, List.length_erase_of_mem hbmem]
        have hpos : 0 < (unvisitedList s.n mask).length :=
          List.length_pos.2 (fun hnil => by rw [hnil] at hbmem; cases hbmem)
        omega
      have hbits' : ∀ i, i < s.n →
          ((mask ||| (1 <<< b)).testBit i = true ↔ i ∈ path ++ [b]) := by
        intro i hi
        rw [Nat.one_shiftLeft, Nat.testBit_or, Nat.testBit_two_pow, List.mem_append,
          List.mem_singleton, Bool.or_eq_true, decide_eq_true_eq]
        constructor
        · intro hc
          rcases hc with hc | hc
          · exact Or.inl ((hbits i hi).1 hc)
          · exact Or.inr hc.symm
        · intro hc
          rcases hc with hc | hc
          · exact Or.inl ((hbits i hi).2 hc)
          · exact Or.inr hc.symm
      obtain ⟨q, hq, hqnd, hqb, hqc⟩ := ih (mask ||| (1 <<< b)) b (path ++ [b])
        (mask_or_lt hmask hbn) hlen' hbcov
        (List.nodup_append.2 ⟨hnd, List.nodup_singleton b,
          fun a ha hb' => hbnotpath (List.mem_singleton.1 hb' ▸ ha)⟩)
        (fun x hx => by
          rcases List.mem_append.1 hx with h | h
          · exact hbound x h
          · rw [List.mem_singleton.1 h]; exact hbn)
        hbits'
      refine ⟨b :: q, ?_, ?_, ?_, ?_⟩
      · rw [hq, List.append_assoc]
        rfl
      · rw [show path ++ b :: q = (path ++ [b]) ++ q by rw [List.append_assoc]; rfl]
        exact hqnd
      · rw [show path ++ b :: q = (path ++ [b]) ++ q by rw [List.append_assoc]; rfl]
        exact hqb
      · rw [show path ++ b :: q = (path ++ [b]) ++ q by rw [List.append_assoc]; rfl]
        exact hqc

/-! ### `solve` -/

theorem solve_spec (s0 : TSPSolver) (verbose : Bool)
    (hInv : Inv s0.distance_matrix s0.n s0.memo s0.parent)
    (h2 : 2 ≤ s0.n) :
    ∃ s' path,
      TSPSolver.solve s0 verbose =
        .ok (s', permMin s0.distance_matrix 0 (unvisitedList s0.n 1), path) ∧
      s'.distance_matrix = s0.distance_matrix ∧ s'.n = s0.n ∧
      Inv s0.distance_matrix s0.n s'.memo s'.parent ∧
      (∀ k v, s0.memo k = some v → s'.memo k = some v) ∧
      (∀ k v, s0.parent k = some v → s'.parent k = some v) ∧
      (s'.memo (1, 0)).isSome ∧
      path.head? = some 0 ∧ path.length = s0.n ∧ path.Nodup ∧
      (∀ x ∈ path, x < s0.n) := by
  rw [TSPSolver.solve, if_neg (by omega), if_neg (by omega)]
  dsimp only
  have hmask1 : (1 : ℕ) < 2 ^ s0.n := one_lt_two_pow_n (by omega)
  have hlen : (unvisitedList s0.n 1).length < s0.n := by
    rw [unvisitedList_one (by omega), List.length_range']
    omega
  obtain ⟨s₁, hdp, hdm₁, hn₁, hInv₁, hmm₁, hmp₁, hcov⟩ :=
    dp_spec s0.n s0 1 0 verbose hInv hmask1 hlen
  rw [hdp]
  dsimp only
  have hms : (s₁.memo (1, 0)).isSome := hcov (one_ne_full h2)
  have hInv₀ : Inv s0.distance_matrix s0.n s₁.memo s₁.parent := by
    rw [← hdm₁, ← hn₁]
    exact hInv₁
  have hbits0 : ∀ i, i < s₁.n → ((1 : ℕ).testBit i = true ↔ i ∈ [0]) := by
    intro i _
    rw [testBit_one, List.mem_singleton, decide_eq_true_eq]
    exact ⟨fun h => h.symm, fun h => h.symm⟩
  obtain ⟨q, hrec, hqnd, hqb, hqc⟩ := reconstructLoop_spec s₁ hInv₁ s₁.n 1 0 [0]
    (by rw [hn₁]; exact hmask1)
    (by rw [hn₁]; exact hlen)
    (by
      rw [hn₁]
      exact Or.inr hms)
    (List.nodup_singleton 0)
    (by
      intro x hx
      rw [List.mem_singleton.1 hx, hn₁]
      omega)
    hbits0
  rw [TSPSolver.reconstruct_path, hrec]
  dsimp only
  refine ⟨s₁, [0] ++ q, rfl, hdm₁, hn₁, hInv₀, hmm₁, hmp₁, hms, rfl, ?_, hqnd, ?_⟩
  · rw [← hn₁]
    exact length_eq_of_nodup_complete hqnd hqb hqc
  · intro x hx
    rw [← hn₁]
    exact hqb x hx

theorem dp_memo_hit {s : TSPSolver} {mask current : ℕ} {verbose : Bool} {v : Cost}
    (fuel : ℕ) (hfull : ¬ mask = (1 <<< s.n) - 1)
    (hv : s.memo (mask, current) = some v) :
    TSPSolver.dp (fuel + 1) s mask current verbose = .ok (s, v) := by
  rw [TSPSolver.dp, if_neg hfull, hv]

theorem solve_inv {s0 : TSPSolver} {verbose : Bool} {s' : TSPSolver} {c : Cost}
    {p : List ℕ} (h2 : 2 ≤ s0.n)
    (h : TSPSolver.solve s0 verbose = .ok (s', c, p)) :
    TSPSolver.dp s0.n s0 1 0 verbose = .ok (s', c) ∧
    TSPSolver.reconstruct_path s' 1 0 = .ok p := by
  rw [TSPSolver.solve, if_neg (by omega), if_neg (by omega)] at h
  dsimp only at h
  cases hdp : TSPSolver.dp s0.n s0 1 0 verbose with
  | error e =>
    rw [hdp] at h
    exact Except.noConfusion h
  | ok pr =>
    rcases pr with ⟨s₁, c₁⟩
    rw [hdp] at h
    dsimp only at h
    cases hrec : TSPSolver.reconstruct_path s₁ 1 0 with
    | error e =>
      rw [hrec] at h
      exact Except.noConfusion h
    | ok path₁ =>
      rw [hrec] at h
      dsimp only at h
      injection h with h
      rw [Prod.mk.injEq, Prod.mk.injEq] at h
      obtain ⟨rfl, rfl, rfl⟩ := h
      exact ⟨rfl, hrec⟩

/-! ### Fresh-solver facts -/

theorem Inv_new (dm : List (List ℚ)) :
    Inv (TSPSolver.new dm).distance_matrix (TSPSolver.new dm).n
      (TSPSolver.new dm).memo (TSPSolver.new dm).parent := by
  constructor
  · intro mask c v h
    exact Option.noConfusion h
  · intro mask c b h
    exact Option.noConfusion h

/-! ### Claim theorems -/

/-- Claim C1. For every `n` with `2 ≤ n ≤ 8` and every `n × n` distance matrix
with zero diagonal and non-negative entries, the cost returned by `solve`
equals the minimum, over all `(n-1)!` permutations of the cities `1 .. n-1`
(the list `List.range' 1 (n-1)`), of the cost of the cycle that starts at
city `0`, visits the cities in permutation order, and returns to city `0`. -/
theorem solve_cost_eq_bruteforce_min (dm : List (List ℚ)) (n : ℕ) (verbose : Bool)
    (hn : n = dm.length) (h2 : 2 ≤ n) (h8 : n ≤ 8)
    (hsq : ∀ row ∈ dm, row.length = n)
    (hdiag : ∀ i, i < n → dist dm i i = 0)
    (hnonneg : ∀ row ∈ dm, ∀ d ∈ row, 0 ≤ d) :
    ∃ s' path, TSPSolver.solve (TSPSolver.new dm) verbose =
      .ok (s', permMin dm 0 (List.range' 1 (n - 1)), path) := by
  subst hn
  obtain ⟨s', path, heq, -⟩ :=
    solve_spec (TSPSolver.new dm) verbose (Inv_new dm) h2
  rw [show (TSPSolver.new dm).distance_matrix = dm from rfl,
    show (TSPSolver.new dm).n = dm.length from rfl,
    unvisitedList_one (by omega)] at heq
  exact ⟨s', path, heq⟩

theorem solve_cost_eq_bruteforce_min_witness :
    ∃ s' path, TSPSolver.solve (TSPSolver.new exampleMatrix) false =
      .ok (s', permMin exampleMatrix 0 (List.range' 1 (3 - 1)), path) :=
  solve_cost_eq_bruteforce_min exampleMatrix 3 false rfl (by norm_num) (by norm_num)
    (by with_unfolding_all decide) (by with_unfolding_all decide)
    (by with_unfolding_all decide)

/-- Claim C6. For every valid `n × n` matrix with `n ≥ 2`, the tour returned by
`solve` (via `reconstruct_path` from mask `{0}` and city `0`) begins with city
`0` and contains exactly `n` pairwise-distinct city indices, each in `[0, n)`. -/
theorem tour_starts_at_zero_visits_all (dm : List (List ℚ)) (verbose : Bool)
    (h2 : 2 ≤ dm.length) (hsq : ∀ row ∈ dm, row.length = dm.length)
    {s' : TSPSolver} {c : Cost} {p : List ℕ}
    (hsolve : TSPSolver.solve (TSPSolver.new dm) verbose = .ok (s', c, p)) :
    p.head? = some 0 ∧ p.length = dm.length ∧ p.Nodup ∧ ∀ x ∈ p, x < dm.length := by
  obtain ⟨s₁, path, heq, -, -, -, -, -, -, hhead, hlen, hnd, hb⟩ :=
    solve_spec (TSPSolver.new dm) verbose (Inv_new dm) h2
  rw [heq] at hsolve
  injection hsolve with hsolve
  rw [Prod.mk.injEq, Prod.mk.injEq] at hsolve
  obtain ⟨-, -, rfl⟩ := hsolve
  exact ⟨hhead, hlen, hnd, hb⟩

theorem tour_starts_at_zero_visits_all_witness :
    ∃ s' c p, TSPSolver.solve (TSPSolver.new exampleMatrix) false = .ok (s', c, p) ∧
      (p.head? = some 0 ∧ p.length = exampleMatrix.length ∧ p.Nodup ∧
        ∀ x ∈ p, x < exampleMatrix.length) := by
  refine ⟨_, _, _, by with_unfolding_all rfl, ?_⟩
  exact tour_starts_at_zero_visits_all exampleMatrix false
    (by with_unfolding_all decide) (by with_unfolding_all decide)
    (by with_unfolding_all rfl)

/-- Claim C7. On the 3-city matrix `[[0,10,15],[10,0,20],[15,20,0]]`, `solve`
returns cost `45` and tour `[0,1,2]`; both candidate tours `[0,1,2]` and
`[0,2,1]` cost `45`, so this instance also exercises the tie-break. -/
theorem reference_case_cost_and_tour :
    ((TSPSolver.solve (TSPSolver.new exampleMatrix) false).toOption.map
      fun r => (r.2.1, r.2.2)) = some (((45 : ℚ) : Cost), [0, 1, 2]) ∧
    pathCost exampleMatrix 0 [1, 2] = 45 ∧
    pathCost exampleMatrix 0 [2, 1] = 45 := by
  refine ⟨?_, ?_, ?_⟩ <;> with_unfolding_all decide

/-- Claim C8. `solve` handles the degenerate sizes without invoking the
recurrence: for `n = 0` it returns `(0.0, [])` (the solver state untouched)
and for `n = 1` it returns `(0.0, [0])`. -/
theorem degenerate_sizes_solve (dm : List (List ℚ)) (verbose : Bool) :
    (dm.length = 0 → TSPSolver.solve (TSPSolver.new dm) verbose =
      .ok (TSPSolver.new dm, ((0 : ℚ) : Cost), [])) ∧
    (dm.length = 1 → TSPSolver.solve (TSPSolver.new dm) verbose =
      .ok (TSPSolver.new dm, ((0 : ℚ) : Cost), [0])) := by
  constructor
  · intro h
    rw [TSPSolver.solve, if_pos (show (TSPSolver.new dm).n = 0 from h)]
  · intro h
    rw [TSPSolver.solve,
      if_neg (show ¬ (TSPSolver.new dm).n = 0 by
        rw [show (TSPSolver.new dm).n = dm.length from rfl, h]
        norm_num),
      if_pos (show (TSPSolver.new dm).n = 1 from h)]

theorem degenerate_sizes_solve_witness :
    TSPSolver.solve (TSPSolver.new []) false = .ok (TSPSolver.new [], ((0 : ℚ) : Cost), []) ∧
    TSPSolver.solve (TSPSolver.new [[0]]) false =
      .ok (TSPSolver.new [[0]], ((0 : ℚ) : Cost), [0]) :=
  ⟨(degenerate_sizes_solve [] false).1 rfl, (degenerate_sizes_solve [[0]] false).2 rfl⟩

/-- Claim C9. `solve`'s work terminates for every square matrix with `n ≤ 20`:
the `dp` recursion succeeds under any recursion budget of at least `n` (each
recursive call strictly shrinks the set of unvisited cities, so the depth is at
most `n`), and the `reconstruct_path` loop reaches the full mask within any
iteration budget of at least `n` (each iteration sets a previously-clear bit). -/
theorem solver_terminates_within_fuel (dm : List (List ℚ)) (fuel : ℕ) (verbose : Bool)
    (h2 : 2 ≤ dm.length) (h20 : dm.length ≤ 20)
    (hsq : ∀ row ∈ dm, row.length = dm.length)
    (hfuel : dm.length ≤ fuel) :
    ∃ s' c, TSPSolver.dp fuel (TSPSolver.new dm) 1 0 verbose = .ok (s', c) ∧
      ∀ fuel2, dm.length ≤ fuel2 →
        (TSPSolver.reconstructLoop s' fuel2 1 0 [0]).isOk = true := by
  have hmask1 : (1 : ℕ) < 2 ^ (TSPSolver.new dm).n :=
    one_lt_two_pow_n (show 1 ≤ dm.length by omega)
  have hlen : (unvisitedList (TSPSolver.new dm).n 1).length < fuel := by
    rw [show (TSPSolver.new dm).n = dm.length from rfl, unvisitedList_one (by omega),
      List.length_range']
    omega
  obtain ⟨s', hdp, hdm₁, hn₁, hInv₁, -, -, hcov⟩ :=
    dp_spec fuel (TSPSolver.new dm) 1 0 verbose (Inv_new dm) hmask1 hlen
  refine ⟨s', _, hdp, ?_⟩
  intro fuel2 hf2
  have hms : (s'.memo (1, 0)).isSome := hcov (one_ne_full h2)
  obtain ⟨q, hrec, -, -, -⟩ := reconstructLoop_spec s' hInv₁ fuel2 1 0 [0]
    (by rw [hn₁]; exact hmask1)
    (by
      rw [hn₁, show (TSPSolver.new dm).n = dm.length from rfl,
        unvisitedList_one (by omega), List.length_range']
      omega)
    (Or.inr hms)
    (List.nodup_singleton 0)
    (by
      intro x hx
      rw [List.mem_singleton.1 hx, hn₁]
      show 0 < dm.length
      omega)
    (by
      intro i _
      rw [testBit_one, List.mem_singleton, decide_eq_true_eq]
      exact ⟨fun h => h.symm, fun h => h.symm⟩)
  rw [hrec]
  rfl

theorem solver_terminates_within_fuel_witness :
    ∃ s' c, TSPSolver.dp 3 (TSPSolver.new exampleMatrix) 1 0 false = .ok (s', c) ∧
      (TSPSolver.reconstructLoop s' 3 1 0 [0]).isOk = true := by
  obtain ⟨s', c, hdp, hrec⟩ := solver_terminates_within_fuel exampleMatrix 3 false
    (by with_unfolding_all decide) (by with_unfolding_all decide)
    (by with_unfolding_all decide) (by with_unfolding_all decide)
  exact ⟨s', c, hdp, hrec 3 (by with_unfolding_all decide)⟩

/-- Claim C10. For every square distance matrix — even one violating the
documented zero-diagonal, non-negativity or `n ≤ 20` preconditions — `solve`
never returns the `Err` variant: every failure path the caller must handle
comes from validation or I/O outside the solver. -/
theorem solve_never_returns_err (dm : List (List ℚ)) (verbose : Bool)
    (hsq : ∀ row ∈ dm, row.length = dm.length) :
    (TSPSolver.solve (TSPSolver.new dm) verbose).isOk = true := by
  by_cases h0 : dm.length = 0
  · rw [TSPSolver.solve, if_pos (show (TSPSolver.new dm).n = 0 from h0)]
    rfl
  · by_cases h1 : dm.length = 1
    · rw [TSPSolver.solve, if_neg (show ¬ (TSPSolver.new dm).n = 0 from h0),
        if_pos (show (TSPSolver.new dm).n = 1 from h1)]
      rfl
    · obtain ⟨s', path, heq, -⟩ := solve_spec (TSPSolver.new dm) verbose (Inv_new dm)
        (show 2 ≤ dm.length by omega)
      rw [heq]
      rfl

theorem solve_never_returns_err_witness :
    (TSPSolver.solve (TSPSolver.new [[1, -2], [3, 4]]) false).isOk = true :=
  solve_never_returns_err [[1, -2], [3, 4]] false (by with_unfolding_all decide)

/-- Claim C2. In `dp`, candidate next cities are examined in ascending index
order and the recorded best choice is updated only on a strict improvement;
therefore every `parent` entry recorded while solving stores a next city that
attains the minimal completion cost, and it is the lowest-indexed city among
those that tie for that minimum — the city the reconstructed tour follows. -/
theorem parent_is_lowest_tied_next (dm : List (List ℚ)) (verbose : Bool)
    {s' : TSPSolver} {c : Cost} {p : List ℕ}
    (hsolve : TSPSolver.solve (TSPSolver.new dm) verbose = .ok (s', c, p))
    (mask cur b : ℕ) (hp : s'.parent (mask, cur) = some b) :
    b ∈ unvisitedList dm.length mask ∧
    candCost dm dm.length mask cur b = permMin dm cur (unvisitedList dm.length mask) ∧
    ∀ y ∈ unvisitedList dm.length mask,
      candCost dm dm.length mask cur y = candCost dm dm.length mask cur b → b ≤ y := by
  by_cases h2 : 2 ≤ dm.length
  · obtain ⟨s₁, path, heq, -, -, hInv₁, -⟩ :=
      solve_spec (TSPSolver.new dm) verbose (Inv_new dm) h2
    rw [show (TSPSolver.new dm).distance_matrix = dm from rfl,
      show (TSPSolver.new dm).n = dm.length from rfl] at hInv₁
    rw [heq] at hsolve
    injection hsolve with hsolve
    rw [Prod.mk.injEq, Prod.mk.injEq] at hsolve
    obtain ⟨hse, -, -⟩ := hsolve
    subst hse
    have hms := hInv₁.2 mask cur b hp
    rcases Option.isSome_iff_exists.1 hms with ⟨v, hv⟩
    obtain ⟨-, -, -, b', hb', hbmem, hbeq, hbleast, -⟩ := hInv₁.1 mask cur v hv
    rw [hp] at hb'
    injection hb' with hb'
    subst hb'
    refine ⟨hbmem, hbeq, ?_⟩
    intro y hy hyeq
    exact hbleast y hy (by rw [hyeq, hbeq])
  · exfalso
    have hd : dm.length = 0 ∨ dm.length = 1 := by omega
    rcases hd with h0 | h1
    · rw [TSPSolver.solve, if_pos (show (TSPSolver.new dm).n = 0 from h0)] at hsolve
      injection hsolve with hsolve
      rw [Prod.mk.injEq] at hsolve
      obtain ⟨hse, -⟩ := hsolve
      rw [← hse] at hp
      exact Option.noConfusion hp
    · rw [TSPSolver.solve,
        if_neg (show ¬ (TSPSolver.new dm).n = 0 by
          rw [show (TSPSolver.new dm).n = dm.length from rfl, h1]
          norm_num),
        if_pos (show (TSPSolver.new dm).n = 1 from h1)] at hsolve
      injection hsolve with hsolve
      rw [Prod.mk.injEq] at hsolve
      obtain ⟨hse, -⟩ := hsolve
      rw [← hse] at hp
      exact Option.noConfusion hp

theorem parent_is_lowest_tied_next_witness :
    ∃ s' c p, TSPSolver.solve (TSPSolver.new exampleMatrix) false = .ok (s', c, p) ∧
      s'.parent (1, 0) = some 1 ∧
      (1 ∈ unvisitedList exampleMatrix.length 1 ∧
       candCost exampleMatrix exampleMatrix.length 1 0 1 =
         permMin exampleMatrix 0 (unvisitedList exampleMatrix.length 1) ∧
       ∀ y ∈ unvisitedList exampleMatrix.length 1,
         candCost exampleMatrix exampleMatrix.length 1 0 y =
           candCost exampleMatrix exampleMatrix.length 1 0 1 → 1 ≤ y) := by
  refine ⟨_, _, _, by with_unfolding_all rfl, by with_unfolding_all decide, ?_⟩
  exact parent_is_lowest_tied_next exampleMatrix false
    (by with_unfolding_all rfl) 1 0 1 (by with_unfolding_all decide)

/-- Claim C3 (counterexample). The claim fails: after one `solve` on a fresh
solver for the 3-city reference matrix, the memo entry for state
`(mask = 3, city 1)` written during that call (value `35`) is still present in
the solver state in which any subsequent `solve` on the same instance begins —
`solve` never clears the tables. -/
theorem memo_persists_across_solves_counterexample :
    ((TSPSolver.solve (TSPSolver.new exampleMatrix) false).toOption.map
      fun r => r.1.memo (3, 1)) = some (some ((35 : ℚ) : Cost)) := by
  with_unfolding_all decide

/-- Claim C3 (amended). The Memo and Parent tables are constructed fresh for
each `TSPSolver` instance (`new` creates them empty), not for each `solve`
call: entries written by one `solve` are still present when a subsequent
`solve` on the same instance begins.  Because the instance's matrix is fixed,
a repeated `solve` nevertheless returns exactly the same state and result. -/
theorem tables_fresh_per_instance_amended (dm : List (List ℚ)) (verbose : Bool) :
    (∀ k, (TSPSolver.new dm).memo k = none ∧ (TSPSolver.new dm).parent k = none) ∧
    (∀ s' c p, TSPSolver.solve (TSPSolver.new dm) verbose = .ok (s', c, p) →
      TSPSolver.solve s' verbose = .ok (s', c, p)) := by
  refine ⟨fun k => ⟨rfl, rfl⟩, ?_⟩
  intro s' c p hsolve
  by_cases h2 : 2 ≤ dm.length
  · obtain ⟨hdp, hrec⟩ := solve_inv (show 2 ≤ (TSPSolver.new dm).n from h2) hsolve
    have hmask1 : (1 : ℕ) < 2 ^ (TSPSolver.new dm).n :=
      one_lt_two_pow_n (show 1 ≤ dm.length by omega)
    have hlen : (unvisitedList (TSPSolver.new dm).n 1).length < (TSPSolver.new dm).n := by
      rw [show (TSPSolver.new dm).n = dm.length from rfl, unvisitedList_one (by omega),
        List.length_range']
      omega
    obtain ⟨s₁, hdp', hdm₁, hn₁, hInv₁, -, -, hcov⟩ :=
      dp_spec (TSPSolver.new dm).n (TSPSolver.new dm) 1 0 verbose (Inv_new dm) hmask1 hlen
    rw [hdp'] at hdp
    injection hdp with hdp
    rw [Prod.mk.injEq] at hdp
    obtain ⟨hse, hce⟩ := hdp
    rw [← hse] at hrec
    rw [← hse, ← hce]
    have hn2 : 2 ≤ s₁.n := by
      rw [hn₁]
      exact h2
    rw [TSPSolver.solve, if_neg (by omega), if_neg (by omega)]
    dsimp only
    have hms : (s₁.memo (1, 0)).isSome := hcov (one_ne_full h2)
    rcases Option.isSome_iff_exists.1 hms with ⟨v, hv⟩
    obtain ⟨-, -, hveq, -⟩ := hInv₁.1 1 0 v hv
    obtain ⟨m, hm⟩ : ∃ m, s₁.n = m + 1 := ⟨s₁.n - 1, by omega⟩
    rw [hm, dp_memo_hit m (by
      rw [Nat.one_shiftLeft]
      exact one_ne_full hn2) hv]
    dsimp only
    rw [hrec]
    dsimp only
    rw [hveq, hdm₁, hn₁]
  · have hd : dm.length = 0 ∨ dm.length = 1 := by omega
    rcases hd with h0 | h1
    · rw [TSPSolver.solve, if_pos (show (TSPSolver.new dm).n = 0 from h0)] at hsolve
      injection hsolve with hsolve
      rw [Prod.mk.injEq, Prod.mk.injEq] at hsolve
      obtain ⟨hse, hce, hpe⟩ := hsolve
      subst hse
      subst hce
      subst hpe
      rw [TSPSolver.solve, if_pos (show (TSPSolver.new dm).n = 0 from h0)]
    · rw [TSPSolver.solve,
        if_neg (show ¬ (TSPSolver.new dm).n = 0 by
          rw [show (TSPSolver.new dm).n = dm.length from rfl, h1]
          norm_num),
        if_pos (show (TSPSolver.new dm).n = 1 from h1)] at hsolve
      injection hsolve with hsolve
      rw [Prod.mk.injEq, Prod.mk.injEq] at hsolve
      obtain ⟨hse, hce, hpe⟩ := hsolve
      subst hse
      subst hce
      subst hpe
      rw [TSPSolver.solve,
        if_neg (show ¬ (TSPSolver.new dm).n = 0 by
          rw [show (TSPSolver.new dm).n = dm.length from rfl, h1]
          norm_num),
        if_pos (show (TSPSolver.new dm).n = 1 from h1)]

theorem tables_fresh_per_instance_amended_witness :
    ∃ s' c p, TSPSolver.solve (TSPSolver.new exampleMatrix) false = .ok (s', c, p) ∧
      TSPSolver.solve s' false = .ok (s', c, p) := by
  refine ⟨_, _, _, by with_unfolding_all rfl, ?_⟩
  exact (tables_fresh_per_instance_amended exampleMatrix false).2 _ _ _
    (by with_unfolding_all rfl)

/-! ### Parser lemmas -/

theorem parseRows_length {n : ℕ} : ∀ (ls : List Str) (rows : List (List ℚ)),
    InputParser.parseRows n ls = .ok rows → rows.length = ls.length := by
  intro ls
  induction ls with
  | nil =>
    intro rows h
    rw [InputParser.parseRows] at h
    injection h with h
    rw [← h]
    rfl
  | cons line rest ih =>
    intro rows h
    rw [InputParser.parseRows] at h
    cases hmp : (split_whitespace line).mapM parseF64? with
    | none =>
      rw [hmp] at h
      exact Except.noConfusion h
    | some row =>
      rw [hmp] at h
      dsimp only at h
      by_cases hlen : row.length ≠ n
      · rw [if_pos hlen] at h
        exact Except.noConfusion h
      · rw [if_neg hlen] at h
        cases hrec : InputParser.parseRows n rest with
        | error e =>
          rw [hrec] at h
          exact Except.noConfusion h
        | ok rows' =>
          rw [hrec] at h
          dsimp only at h
          injection h with h
          rw [← h, List.length_cons, List.length_cons, ih rows' hrec]

theorem parse_matrix_format_fewer_rows {lines : List Str}
    (h : lines.length < (split_whitespace (lines.headD [])).length + 1) :
    (InputParser.parse_matrix_format lines).isOk = false := by
  rw [InputParser.parse_matrix_format]
  by_cases hl2 : lines.length < 2
  · rw [if_pos hl2]
    rfl
  · rw [if_neg hl2]
    dsimp only
    by_cases hn0 : (split_whitespace (lines.headD [])).length = 0
    · rw [if_pos hn0]
      rfl
    · rw [if_neg hn0]
      cases hpr : InputParser.parseRows (split_whitespace (lines.headD [])).length
          ((lines.drop 1).take (split_whitespace (lines.headD [])).length) with
      | error e => rfl
      | ok matrix =>
        dsimp only
        have hml := parseRows_length _ _ hpr
        rw [List.length_take, List.length_drop] at hml
        rw [if_pos (show matrix.length ≠ (split_whitespace (lines.headD [])).length by
          rw [hml, Nat.min_eq_right (by omega : lines.length - 1 ≤ (split_whitespace (lines.headD [])).length)]
          omega)]
        rfl

theorem findMatrixStart_le (lines : List Str) :
    InputParser.findMatrixStart lines ≤ lines.length := by
  rw [InputParser.findMatrixStart]
  cases hf : lines.findIdx?
      (fun line => (split_whitespace line).all fun part => (parseF64? part).isSome) with
  | none => exact Nat.zero_le _
  | some i =>
    exact le_of_lt (List.findIdx?_eq_some_iff_findIdx_eq.1 hf).1

theorem parse_list_format_fewer_rows {lines : List Str}
    (h : lines.length < 2 * InputParser.findMatrixStart lines) :
    (InputParser.parse_list_format lines).isOk = false := by
  rw [InputParser.parse_list_format]
  dsimp only
  by_cases hk0 : InputParser.findMatrixStart lines = 0
  · rw [if_pos hk0]
    rfl
  · rw [if_neg hk0]
    have hkle : InputParser.findMatrixStart lines ≤ lines.length := findMatrixStart_le lines
    have htk : (lines.take (InputParser.findMatrixStart lines)).length =
        InputParser.findMatrixStart lines := by
      rw [List.length_take, Nat.min_eq_left hkle]
    rw [if_neg (show ¬ (lines.take (InputParser.findMatrixStart lines)).length = 0 by
      rw [htk]
      exact hk0)]
    cases hpr : InputParser.parseRows (lines.take (InputParser.findMatrixStart lines)).length
        ((lines.drop (InputParser.findMatrixStart lines)).take
          (lines.take (InputParser.findMatrixStart lines)).length) with
    | error e => rfl
    | ok matrix =>
      dsimp only
      have hml := parseRows_length _ _ hpr
      rw [List.length_take, List.length_drop, htk] at hml
      rw [if_pos (show matrix.length ≠ (lines.take (InputParser.findMatrixStart lines)).length by
        rw [hml, htk,
          Nat.min_eq_right (by omega : lines.length - InputParser.findMatrixStart lines ≤
            InputParser.findMatrixStart lines)]
        omega)]
      rfl

/-- Claim C4 (counterexample). The claim fails in the "more rows" direction:
this matrix-layout input declares two cities but supplies three matrix rows,
and `parse` succeeds, silently ignoring the extra row (`if i >= n { break; }`
in the source), instead of returning an error. -/
theorem extra_rows_ignored_counterexample :
    (InputParser.parse "A B\n0 1\n1 0\n2 3".toList).toOption =
      some (["A".toList, "B".toList], [[0, 1], [1, 0]]) := by
  with_unfolding_all decide

/-- Claim C4 (amended). Supplying fewer matrix rows than the detected city count
`n` is a parse failure, in both the matrix layout and the list layout; rows
beyond the first `n`, however, are ignored (the row loops `break` at `i >= n`),
so supplying more rows than `n` is not a parse failure. -/
theorem fewer_rows_parse_failure_amended :
    (∀ lines : List Str,
      lines.length < (split_whitespace (lines.headD [])).length + 1 →
      (InputParser.parse_matrix_format lines).isOk = false) ∧
    (∀ lines : List Str,
      lines.length < 2 * InputParser.findMatrixStart lines →
      (InputParser.parse_list_format lines).isOk = false) :=
  ⟨fun _ h => parse_matrix_format_fewer_rows h,
   fun _ h => parse_list_format_fewer_rows h⟩

theorem fewer_rows_parse_failure_amended_witness :
    ((["AB CD".toList] : List Str).length <
        (split_whitespace (["AB CD".toList].headD [])).length + 1 ∧
      (InputParser.parse_matrix_format ["AB CD".toList]).isOk = false) ∧
    (["A".toList, "B".toList, "1 2".toList].length <
        2 * InputParser.findMatrixStart ["A".toList, "B".toList, "1 2".toList] ∧
      (InputParser.parse_list_format ["A".toList, "B".toList, "1 2".toList]).isOk = false) := by
  constructor
  · constructor
    · with_unfolding_all decide
    · exact fewer_rows_parse_failure_amended.1 ["AB CD".toList]
        (by with_unfolding_all decide)
  · constructor
    · with_unfolding_all decide
    · exact fewer_rows_parse_failure_amended.2 ["A".toList, "B".toList, "1 2".toList]
        (by with_unfolding_all decide)

/-! ### Validation -/

theorem except_isOk_unit {e : Except String Unit} : e.isOk = true ↔ e = .ok () := by
  cases e with
  | error a =>
    simp [Except.isOk, Except.toBool]
  | ok u =>
    cases u
    simp [Except.isOk, Except.toBool]

theorem validateRows_ok_iff (n : ℕ) : ∀ (rows : List (List ℚ)) (i : ℕ),
    validateRows n i rows = .ok () ↔
      ∀ j, j < rows.length →
        (rows.getD j []).length = n ∧
        (rows.getD j []).getD (i + j) 0 = 0 ∧
        ∀ d ∈ rows.getD j [], 0 ≤ d := by
  intro rows
  induction rows with
  | nil =>
    intro i
    constructor
    · intro _ j hj
      exact absurd hj (Nat.not_lt_zero _)
    · intro _
      rfl
  | cons row rest ih =>
    intro i
    rw [validateRows]
    by_cases h1 : row.length ≠ n
    · rw [if_pos h1]
      constructor
      · intro h
        exact Except.noConfusion h
      · intro h
        exact absurd (h 0 (by simp)).1 h1
    · rw [if_neg h1]
      by_cases h2 : row.getD i 0 ≠ 0
      · rw [if_pos h2]
        constructor
        · intro h
          exact Except.noConfusion h
        · intro h
          have hd0 := (h 0 (by simp)).2.1
          simp only [List.getD_cons_zero, Nat.add_zero] at hd0
          exact absurd hd0 h2
      · rw [if_neg h2]
        by_cases h3 : row.any (fun d => decide (d < 0)) = true
        · rw [if_pos h3]
          constructor
          · intro h
            exact Except.noConfusion h
          · intro h
            rcases List.any_eq_true.1 h3 with ⟨d, hd, hdlt⟩
            have hge := (h 0 (by simp)).2.2 d (by simpa using hd)
            rw [decide_eq_true_eq] at hdlt
            exact absurd hge (not_le.2 hdlt)
        · rw [if_neg h3]
          rw [ih (i + 1)]
          constructor
          · intro h j hj
            cases j with
            | zero =>
              refine ⟨not_not.1 h1, by simpa using not_not.1 h2, ?_⟩
              intro d hd
              by_contra hneg
              exact h3 (List.any_eq_true.2
                ⟨d, by simpa using hd, decide_eq_true (not_le.1 hneg)⟩)
            | succ j' =>
              have hx := h j' (by simpa using hj)
              simp only [List.getD_cons_succ]
              rw [show i + (j' + 1) = i + 1 + j' by omega]
              exact hx
          · intro h j hj
            have hx := h (j + 1) (by simpa using hj)
            simp only [List.getD_cons_succ] at hx
            rw [show i + 1 + j = i + (j + 1) by omega]
            exact hx

/-- Claim C5. `validate_input` returns an error exactly when the parsed input
violates a solver precondition: it accepts (returns `Ok`) precisely the
square `n × n` matrices — `n` being the number of parsed city names — with
`2 ≤ n ≤ 20`, zero diagonal and no negative entry, all before the solver is
invoked. -/
theorem validate_input_ok_iff (cities : List Str) (matrix : List (List ℚ)) :
    (validate_input cities matrix).isOk = true ↔
      (2 ≤ cities.length ∧ cities.length ≤ 20 ∧ matrix.length = cities.length ∧
       (∀ row ∈ matrix, row.length = cities.length) ∧
       (∀ i, i < cities.length → (matrix.getD i []).getD i 0 = 0) ∧
       (∀ row ∈ matrix, ∀ d ∈ row, 0 ≤ d)) := by
  rw [validate_input]
  by_cases hn2 : cities.length < 2
  · rw [if_pos hn2]
    constructor
    · intro h
      simp [Except.isOk, Except.toBool] at h
    · intro h
      exact absurd h.1 (by omega)
  · rw [if_neg hn2]
    by_cases hn20 : cities.length > 20
    · rw [if_pos hn20]
      constructor
      · intro h
        simp [Except.isOk, Except.toBool] at h
      · intro h
        exact absurd h.2.1 (by omega)
    · rw [if_neg hn20]
      by_cases hmlen : matrix.length ≠ cities.length
      · rw [if_pos hmlen]
        constructor
        · intro h
          simp [Except.isOk, Except.toBool] at h
        · intro h
          exact absurd h.2.2.1 hmlen
      · rw [if_neg hmlen]
        have hmlen' : matrix.length = cities.length := not_not.1 hmlen
        constructor
        · intro h
          have hrows := (validateRows_ok_iff cities.length matrix 0).1
            (except_isOk_unit.1 h)
          refine ⟨by omega, by omega, hmlen', ?_, ?_, ?_⟩
          · intro row hrow
            rcases List.mem_iff_getElem.1 hrow with ⟨j, hjl, rfl⟩
            have hx := (hrows j hjl).1
            rwa [List.getD_eq_getElem _ _ hjl] at hx
          · intro i hi
            have hil : i < matrix.length := by omega
            have hx := (hrows i hil).2.1
            simpa using hx
          · intro row hrow d hd
            rcases List.mem_iff_getElem.1 hrow with ⟨j, hjl, rfl⟩
            exact (hrows j hjl).2.2 d (by rwa [List.getD_eq_getElem _ _ hjl])
        · rintro ⟨-, -, -, hsq, hdiag, hneg⟩
          apply except_isOk_unit.2
          apply (validateRows_ok_iff cities.length matrix 0).2
          intro j hj
          have hget : matrix.getD j [] = matrix[j] := List.getD_eq_getElem _ _ hj
          have hmem : matrix[j] ∈ matrix := List.getElem_mem hj
          refine ⟨by rw [hget]; exact hsq _ hmem, ?_, ?_⟩
          · have hx := hdiag j (by omega)
            simpa using hx
          · intro d hd
            rw [hget] at hd
            exact hneg _ hmem d hd

end TSPVerify
